import Mathlib

/-!
Verification of `src/strings/prefix_function.py`.

The Python module implements the Knuth-Morris-Pratt prefix function and uses it
for exact substring search.  Strings are modelled as `List Char`, Python `int`
positions as `Int` (the reported positions can be negative when the sentinel
assumption is violated), and the fallible `_create_prefix_func` as an
`Option`-returning function (`none` models the `IndexError` raised on the
empty input by `prefix_func[0] = 0`).
-/

namespace KMP

/-- The inner `while` loop of `_create_prefix_func`:

    while cur_max_length > 0 and string[cur_max_length] != char:
        cur_max_length = prefix_func[cur_max_length - 1]

`fuel` bounds the number of iterations.  Each iteration replaces the candidate
`k` by `prefix_func[k - 1]`, which is strictly smaller than `k` (prefix-function
values satisfy `pf[j] ≤ j`), so starting the loop with `fuel = k` runs it to
completion; moreover when the fuel hits `0` the candidate is already `0` and the
loop condition is false, so the fuel-free and fuelled loops agree. -/
def fallback (s : List Char) (pf : List Nat) (c : Char) : Nat → Nat → Nat
  | 0, k => k
  | fuel + 1, k =>
    if 0 < k ∧ s.getD k default ≠ c then fallback s pf c fuel (pf.getD (k - 1) 0)
    else k

/-- The body of the `for i, char in enumerate(string)` loop of
`_create_prefix_func` for `i ≥ 1`: run the fallback loop starting from
`prefix_func[i - 1]`, then extend by one on a character match.

    cur_max_length = prefix_func[i - 1]
    while ... (see `fallback`)
    if string[cur_max_length] == char:
        cur_max_length += 1
    prefix_func[i] = cur_max_length

All list reads are in range along real executions, so `getD` never returns its
default value. -/
def stepPF (s : List Char) (pf : List Nat) (i : Nat) : Nat :=
  let c := s.getD i default
  let k0 := pf.getD (i - 1) 0
  let k := fallback s pf c k0 k0
  if s.getD k default = c then k + 1 else k

/-- Run the main loop of `_create_prefix_func` for `n` further indices.  The
Python code preallocates the array and assigns `prefix_func[i]`; since index `i`
is written exactly when the already-written entries are `0 .. i-1`, appending is
a faithful model of the array assignment. -/
def buildPF (s : List Char) : Nat → List Nat → List Nat
  | 0, pf => pf
  | n + 1, pf => buildPF s n (pf ++ [stepPF s pf pf.length])

/-- The value `_create_prefix_func` computes on a nonempty string: start from
`prefix_func[0] = 0` and run the loop for indices `1 .. len - 1`. -/
def pfCore (s : List Char) : List Nat :=
  buildPF s (s.length - 1) [0]

/-- `_create_prefix_func(string)`.  On the empty string the Python code raises
`IndexError` (the assignment `prefix_func[0] = 0` indexes an empty list), which
is modelled by `none`.  The final `assert all(val != -1 ...)` always passes,
since the loop writes every index `≥ 1`. -/
def create_prefix_func (s : List Char) : Option (List Nat) :=
  if s.length = 0 then none else some (pfCore s)

/-- The match-extraction loop of `find_positions_of_query`:

    for index, match_length in enumerate(relevant_prefix_func):
        if match_length == len(query):
            matches.append(index - (len(query) - 1))

`enumerate` pairs each index with the list element at that index, i.e. with
`relevant.getD index 0` for `index < relevant.length`.  Python integers are
unbounded and signed, so the appended position is an `Int`. -/
def extractMatches (relevant : List Nat) (qlen : Nat) : List Int :=
  (List.range relevant.length).filterMap fun index =>
    if relevant.getD index 0 = qlen then some ((index : Int) - ((qlen : Int) - 1))
    else none

/-- `find_positions_of_query(text, query)`.  The concatenation
`query ++ '#' :: text` is nonempty, so `_create_prefix_func` returns normally
on it with value `pfCore (query ++ '#' :: text)`; `matches or None` is modelled
by the trailing `if`. -/
def find_positions_of_query (text query : List Char) : Option (List Int) :=
  if query.length > text.length then none
  else
    let concatenation := query ++ '#' :: text
    let pf := pfCore concatenation
    let found := extractMatches (pf.drop (query.length + 1)) query.length
    if found = [] then none else some found

/-! ### Specification-side definitions -/

/-- `k` is the length of a proper prefix of `t` that is also a suffix of `t`
(a *border*).  `k = 0` qualifies for every nonempty `t`. -/
def isBorder (t : List Char) (k : Nat) : Prop :=
  k < t.length ∧ t.take k = t.drop (t.length - k)

instance (t : List Char) (k : Nat) : Decidable (isBorder t k) :=
  inferInstanceAs (Decidable (_ ∧ _))

/-- `k` is the length of the longest proper prefix of `t` that is also a
suffix of `t`. -/
def IsMaxBorder (t : List Char) (k : Nat) : Prop :=
  isBorder t k ∧ ∀ j, isBorder t j → j ≤ k

/-- Modelled from the spec: the increasing list of all positions at which
`query` occurs in `text` (used to compare the code against the spec's
"all positions" description). -/
def specOccurrences (text query : List Char) : List Nat :=
  (List.range (text.length + 1 - query.length)).filter
    fun p => decide ((text.drop p).take query.length = query)

/-- The positions recorded by the `matches.append(...)` loop during a call of
`find_positions_of_query`: none in the short-circuit branch (the loop never
runs), otherwise exactly the extracted matches. -/
def recordedMatches (text query : List Char) : List Int :=
  if query.length > text.length then []
  else extractMatches ((pfCore (query ++ '#' :: text)).drop (query.length + 1))
    query.length

/-! ### Index and list helper lemmas -/

theorem getD_take_of_lt {l : List Char} {n m : Nat} (h : m < n) (d : Char) :
    (l.take n).getD m d = l.getD m d := by
  simp [List.getD_eq_getElem?_getD, List.getElem?_take_of_lt h]

theorem getD_drop' {α : Type} (l : List α) (n m : Nat) (d : α) :
    (l.drop n).getD m d = l.getD (n + m) d := by
  simp [List.getD_eq_getElem?_getD, List.getElem?_drop]

theorem getD_append_left {α : Type} {l l' : List α} {n : Nat} (h : n < l.length) (d : α) :
    (l ++ l').getD n d = l.getD n d := by
  simp [List.getD_eq_getElem?_getD, List.getElem?_append_left h]

theorem getD_append_sing {α : Type} (l : List α) (x : α) (d : α) :
    (l ++ [x]).getD l.length d = x := by
  simp [List.getD_eq_getElem?_getD, List.getElem?_append_right (Nat.le_refl l.length)]

theorem getD_mem {α : Type} {l : List α} {n : Nat} (h : n < l.length) (d : α) :
    l.getD n d ∈ l := by
  simp only [List.getD_eq_getElem?_getD, List.getElem?_eq_getElem h, Option.getD_some]
  exact l.getElem_mem h

theorem take_succ_getD {s : List Char} {i : Nat} (h : i < s.length) :
    s.take (i + 1) = s.take i ++ [s.getD i default] := by
  rw [List.take_succ]
  simp [List.getD_eq_getElem?_getD, List.getElem?_eq_getElem h]

/-- `filterMap` with an if-some-none body is `map` after `filter`. -/
theorem filterMap_ite {α β : Type} (P : α → Prop) [DecidablePred P] (g : α → β) (l : List α) :
    (l.filterMap fun a => if P a then some (g a) else none)
      = (l.filter fun a => decide (P a)).map g := by
  induction l with
  | nil => rfl
  | cons a l ih =>
    by_cases h : P a <;>
      simp [List.filterMap_cons, List.filter_cons, h, ih]

/-! ### Border lemmas -/

theorem isBorder_zero {t : List Char} (h : t ≠ []) : isBorder t 0 := by
  refine ⟨List.length_pos.mpr h, ?_⟩
  simp

theorem isBorder_lt {t : List Char} {k : Nat} (h : isBorder t k) : k < t.length := h.1

/-- Extending a border by one matching character: for `j < t.length`,
`j + 1` is a border of `t ++ [c]` iff `j` is a border of `t` and `t[j] = c`. -/
theorem isBorder_append_singleton {t : List Char} {c : Char} {j : Nat} (hj : j < t.length) :
    isBorder (t ++ [c]) (j + 1) ↔ isBorder t j ∧ t.getD j default = c := by
  have hlen : (t ++ [c]).length = t.length + 1 := by simp
  have htake : (t ++ [c]).take (j + 1) = t.take j ++ [t.getD j default] := by
    rw [List.take_append_of_le_length (by omega), take_succ_getD hj]
  have hdropn : t.length + 1 - (j + 1) = t.length - j := by omega
  have hdrop : (t ++ [c]).drop (t.length - j) = t.drop (t.length - j) ++ [c] :=
    List.drop_append_of_le_length (by omega)
  have hlt : t.length - (t.length - j) = j := by omega
  have hlen1 : (t.take j).length = j := by simp; omega
  have hlen2 : (t.drop (t.length - j)).length = j := by simp [hlt]
  constructor
  · rintro ⟨h1, h2⟩
    rw [hlen, hdropn, htake, hdrop] at h2
    obtain ⟨hpre, hsing⟩ := List.append_inj h2 (by rw [hlen1, hlen2])
    refine ⟨⟨hj, hpre⟩, ?_⟩
    simpa using hsing
  · rintro ⟨⟨h1, h2⟩, h3⟩
    refine ⟨by omega, ?_⟩
    rw [hlen, hdropn, htake, hdrop, h2, h3]

/-- A shorter border of `t` is exactly a border of the prefix of `t` cut at a
longer border (and conversely): borders of borders are borders. -/
theorem isBorder_take_iff {t : List Char} {k j : Nat} (hk : isBorder t k) (hjk : j < k) :
    isBorder t j ↔ isBorder (t.take k) j := by
  obtain ⟨hklen, hkeq⟩ := hk
  have hlen : (t.take k).length = k := by simp; omega
  have htake : (t.take k).take j = t.take j := by
    rw [List.take_take]
    congr 1
    omega
  have hdrop : (t.take k).drop (k - j) = t.drop (t.length - j) := by
    rw [hkeq, List.drop_drop]
    congr 1
    omega
  unfold isBorder
  rw [hlen, htake, hdrop]
  constructor
  · rintro ⟨h1, h2⟩
    exact ⟨hjk, h2⟩
  · rintro ⟨h1, h2⟩
    exact ⟨by omega, h2⟩

theorem IsMaxBorder_unique {t : List Char} {a b : Nat}
    (h1 : IsMaxBorder t a) (h2 : IsMaxBorder t b) : a = b :=
  Nat.le_antisymm (h2.2 a h1.1) (h1.2 b h2.1)

theorem IsMaxBorder_singleton {s : List Char} (h : s ≠ []) : IsMaxBorder (s.take 1) 0 := by
  have hlen : (s.take 1).length = 1 := by
    have := List.length_pos.mpr h
    simp
    omega
  constructor
  · refine ⟨by omega, ?_⟩
    simp
  · intro j hj
    have := isBorder_lt hj
    omega

/-! ### Correctness of the table construction -/

/-- Correctness of the fallback loop.  Assume the table `pf` holds the maximal
border lengths for all indices `< i`.  If the loop starts at a candidate `k`
that is a border of `s.take i` and dominates every border whose next character
matches `c`, then it ends at a border that still dominates those borders and
either hit `0` or found a matching next character.  `fuel ≥ k` suffices because
every iteration strictly decreases the candidate. -/
theorem fallback_spec (s : List Char) (i : Nat) (pf : List Nat)
    (hi1 : 1 ≤ i) (hi2 : i ≤ s.length)
    (hInv : ∀ j, j < i → IsMaxBorder (s.take (j + 1)) (pf.getD j 0))
    (c : Char) :
    ∀ fuel k, k ≤ fuel → isBorder (s.take i) k →
      (∀ j, isBorder (s.take i) j → s.getD j default = c → j ≤ k) →
      isBorder (s.take i) (fallback s pf c fuel k) ∧
      (fallback s pf c fuel k = 0 ∨ s.getD (fallback s pf c fuel k) default = c) ∧
      (∀ j, isBorder (s.take i) j → s.getD j default = c →
        j ≤ fallback s pf c fuel k) := by
  have hlen : (s.take i).length = i := by simp; omega
  intro fuel
  induction fuel with
  | zero =>
    intro k hk hb hd
    have hk0 : k = 0 := by omega
    subst hk0
    have heq : fallback s pf c 0 0 = 0 := rfl
    rw [heq]
    exact ⟨hb, Or.inl rfl, hd⟩
  | succ fuel ih =>
    intro k hk hb hd
    by_cases hcond : 0 < k ∧ s.getD k default ≠ c
    · have heq : fallback s pf c (fuel + 1) k = fallback s pf c fuel (pf.getD (k - 1) 0) := by
        simp only [fallback, if_pos hcond]
      rw [heq]
      have hklt : k < i := by
        have h' := isBorder_lt hb
        rw [hlen] at h'
        exact h'
      have hmax := hInv (k - 1) (by omega)
      have hk1' : k - 1 + 1 = k := by omega
      rw [hk1'] at hmax
      have hlenk : (s.take k).length = k := by simp; omega
      have hklt' : pf.getD (k - 1) 0 < k := by
        have h' := isBorder_lt hmax.1
        rw [hlenk] at h'
        exact h'
      have htt : (s.take i).take k = s.take k := by
        rw [List.take_take]
        congr 1
        omega
      have hbnext : isBorder (s.take i) (pf.getD (k - 1) 0) := by
        rw [isBorder_take_iff hb hklt', htt]
        exact hmax.1
      have hdnext : ∀ j, isBorder (s.take i) j → s.getD j default = c →
          j ≤ pf.getD (k - 1) 0 := by
        intro j hj hjc
        have hjk : j ≤ k := hd j hj hjc
        have hjne : j ≠ k := by
          intro h
          exact hcond.2 (h ▸ hjc)
        have hjb : isBorder (s.take k) j := by
          rw [← htt]
          exact (isBorder_take_iff hb (by omega)).mp hj
        exact hmax.2 j hjb
      exact ih (pf.getD (k - 1) 0) (by omega) hbnext hdnext
    · have heq : fallback s pf c (fuel + 1) k = k := by
        simp only [fallback, if_neg hcond]
      rw [heq]
      refine ⟨hb, ?_, hd⟩
      by_cases hk0 : k = 0
      · exact Or.inl hk0
      · right
        by_contra hne
        exact hcond ⟨by omega, hne⟩

/-- Correctness of one iteration of the main loop: if the table is correct for
all indices `< i`, the value written at index `i` is the maximal border length
of `s.take (i + 1)`. -/
theorem stepPF_spec (s : List Char) (i : Nat) (pf : List Nat)
    (hi1 : 1 ≤ i) (hi2 : i < s.length)
    (hInv : ∀ j, j < i → IsMaxBorder (s.take (j + 1)) (pf.getD j 0)) :
    IsMaxBorder (s.take (i + 1)) (stepPF s pf i) := by
  have hlen : (s.take i).length = i := by simp; omega
  have hmax0 := hInv (i - 1) (by omega)
  have hi1' : i - 1 + 1 = i := by omega
  rw [hi1'] at hmax0
  have hfb := fallback_spec s i pf hi1 (by omega) hInv (s.getD i default)
      (pf.getD (i - 1) 0) (pf.getD (i - 1) 0) (Nat.le_refl _)
      hmax0.1 (fun j hj _ => hmax0.2 j hj)
  obtain ⟨hrb, hrc, hrd⟩ := hfb
  have hstep : stepPF s pf i =
      if s.getD (fallback s pf (s.getD i default) (pf.getD (i - 1) 0)
          (pf.getD (i - 1) 0)) default = s.getD i default
      then fallback s pf (s.getD i default) (pf.getD (i - 1) 0) (pf.getD (i - 1) 0) + 1
      else fallback s pf (s.getD i default) (pf.getD (i - 1) 0) (pf.getD (i - 1) 0) := rfl
  set c := s.getD i default with hc
  set r := fallback s pf c (pf.getD (i - 1) 0) (pf.getD (i - 1) 0) with hr
  have hrlt : r < i := by
    have h' := isBorder_lt hrb
    rw [hlen] at h'
    exact h'
  have hu : s.take (i + 1) = s.take i ++ [c] := take_succ_getD hi2
  rw [hstep]
  by_cases hmatch : s.getD r default = c
  · rw [if_pos hmatch]
    constructor
    · rw [hu]
      refine (isBorder_append_singleton (by rw [hlen]; exact hrlt)).mpr ⟨hrb, ?_⟩
      rw [getD_take_of_lt hrlt]
      exact hmatch
    · intro m hm
      rw [hu] at hm
      cases m with
      | zero => omega
      | succ j =>
        have hjlen : j < (s.take i).length := by
          have h' := isBorder_lt hm
          simp only [List.length_append, List.length_singleton] at h'
          omega
        obtain ⟨hjb, hjc⟩ := (isBorder_append_singleton hjlen).mp hm
        have hji : j < i := by
          rw [hlen] at hjlen
          exact hjlen
        rw [getD_take_of_lt hji] at hjc
        have := hrd j hjb hjc
        omega
  · rw [if_neg hmatch]
    have hr0 : r = 0 := by
      rcases hrc with h | h
      · exact h
      · exact absurd h hmatch
    constructor
    · rw [hu, hr0]
      apply isBorder_zero
      simp
    · intro m hm
      rw [hu] at hm
      cases m with
      | zero => omega
      | succ j =>
        have hjlen : j < (s.take i).length := by
          have h' := isBorder_lt hm
          simp only [List.length_append, List.length_singleton] at h'
          omega
        obtain ⟨hjb, hjc⟩ := (isBorder_append_singleton hjlen).mp hm
        have hji : j < i := by
          rw [hlen] at hjlen
          exact hjlen
        rw [getD_take_of_lt hji] at hjc
        have hj0 : j = 0 := by
          have := hrd j hjb hjc
          omega
        subst hj0
        rw [hr0] at hmatch
        exact absurd hjc hmatch

/-- The main loop preserves the table invariant: after appending `n` further
entries, every entry holds the maximal border length of the corresponding
prefix. -/
theorem buildPF_spec (s : List Char) :
    ∀ n pf, 1 ≤ pf.length → pf.length + n ≤ s.length →
      (∀ j, j < pf.length → IsMaxBorder (s.take (j + 1)) (pf.getD j 0)) →
      (buildPF s n pf).length = pf.length + n ∧
      ∀ j, j < pf.length + n → IsMaxBorder (s.take (j + 1)) ((buildPF s n pf).getD j 0) := by
  intro n
  induction n with
  | zero =>
    intro pf h1 h2 h3
    exact ⟨rfl, h3⟩
  | succ n ih =>
    intro pf h1 h2 h3
    have heq : buildPF s (n + 1) pf = buildPF s n (pf ++ [stepPF s pf pf.length]) := rfl
    rw [heq]
    have hstep : IsMaxBorder (s.take (pf.length + 1)) (stepPF s pf pf.length) :=
      stepPF_spec s pf.length pf h1 (by omega) h3
    have hlen' : (pf ++ [stepPF s pf pf.length]).length = pf.length + 1 := by simp
    have h3' : ∀ j, j < (pf ++ [stepPF s pf pf.length]).length →
        IsMaxBorder (s.take (j + 1)) ((pf ++ [stepPF s pf pf.length]).getD j 0) := by
      intro j hj
      rw [hlen'] at hj
      by_cases hjl : j < pf.length
      · rw [getD_append_left hjl]
        exact h3 j hjl
      · have hje : j = pf.length := by omega
        subst hje
        rw [getD_append_sing]
        exact hstep
    have := ih (pf ++ [stepPF s pf pf.length]) (by omega) (by omega) h3'
    rw [hlen'] at this
    refine ⟨?_, ?_⟩
    · rw [this.1]
      omega
    · rw [show pf.length + (n + 1) = pf.length + 1 + n from by omega]
      exact this.2

/-- `_create_prefix_func` on a nonempty string: the table has the string's
length and every entry is the maximal border length of the corresponding
prefix. -/
theorem pfCore_spec (s : List Char) (hs : s ≠ []) :
    (pfCore s).length = s.length ∧
    ∀ j, j < s.length → IsMaxBorder (s.take (j + 1)) ((pfCore s).getD j 0) := by
  have hpos : 0 < s.length := List.length_pos.mpr hs
  have hinit : ∀ j, j < ([0] : List Nat).length →
      IsMaxBorder (s.take (j + 1)) (([0] : List Nat).getD j 0) := by
    intro j hj
    have hj0 : j = 0 := by simpa using hj
    subst hj0
    exact IsMaxBorder_singleton hs
  have h := buildPF_spec s (s.length - 1) [0] (by simp) (by simp; omega) hinit
  unfold pfCore
  simp only [List.length_singleton] at h
  constructor
  · rw [h.1]
    omega
  · intro j hj
    exact h.2 j (by omega)

/-- C1: on every non-empty sequence `s`, `_create_prefix_func(s)` returns an
array with the same length as `s`, whose entry `0` equals `0`, whose entry `i`
satisfies `0 ≤ array[i] ≤ i`, and whose entry `i` is the length of the longest
proper prefix of `s[0..=i]` that is also a suffix of `s[0..=i]`. -/
theorem C1_prefix_table_correct (s : List Char) (hs : s ≠ []) :
    ∃ pf, create_prefix_func s = some pf ∧
      pf.length = s.length ∧
      pf.getD 0 0 = 0 ∧
      ∀ i, i < s.length →
        pf.getD i 0 ≤ i ∧ IsMaxBorder (s.take (i + 1)) (pf.getD i 0) := by
  have hpos : 0 < s.length := List.length_pos.mpr hs
  obtain ⟨hlen, hmb⟩ := pfCore_spec s hs
  refine ⟨pfCore s, ?_, hlen, ?_, ?_⟩
  · unfold create_prefix_func
    rw [if_neg (by omega)]
  · have h0 := hmb 0 hpos
    have hlt := isBorder_lt h0.1
    simp only [List.length_take] at hlt
    omega
  · intro i hi
    have h := hmb i hi
    have hlt := isBorder_lt h.1
    simp only [List.length_take] at hlt
    exact ⟨by omega, h⟩

theorem C1_prefix_table_correct_witness :
    (['a', 'b', 'a'] : List Char) ≠ [] ∧
    (∃ pf, create_prefix_func ['a', 'b', 'a'] = some pf ∧
      pf.length = (['a', 'b', 'a'] : List Char).length ∧
      pf.getD 0 0 = 0 ∧
      ∀ i, i < (['a', 'b', 'a'] : List Char).length →
        pf.getD i 0 ≤ i ∧
          IsMaxBorder ((['a', 'b', 'a'] : List Char).take (i + 1)) (pf.getD i 0)) :=
  ⟨by decide, C1_prefix_table_correct ['a', 'b', 'a'] (by decide)⟩

/-! ### The sentinel concatenation -/

theorem concat_getD_sentinel (text query : List Char) :
    (query ++ '#' :: text).getD query.length default = '#' := by
  rw [List.getD_eq_getElem?_getD, List.getElem?_append_right (Nat.le_refl _)]
  simp

theorem concat_getD_text (text query : List Char) (m : Nat) :
    (query ++ '#' :: text).getD (query.length + 1 + m) default = text.getD m default := by
  rw [List.getD_eq_getElem?_getD, List.getElem?_append_right (by omega)]
  rw [show query.length + 1 + m - query.length = m + 1 from by omega]
  simp [List.getD_eq_getElem?_getD]

/-- Characterisation of a full-length border on the sentinel concatenation:
provided neither side contains `'#'`, the maximal border of
`(query ++ '#' :: text).take (query.length + 2 + r)` is `query.length` exactly
when an occurrence of `query` in `text` ends at text index `r`. -/
theorem maxBorder_concat_iff (text query : List Char)
    (ht : '#' ∉ text) (hq : '#' ∉ query) {r : Nat} (hr : r < text.length) :
    IsMaxBorder ((query ++ '#' :: text).take (query.length + 2 + r)) query.length ↔
      (query.length ≤ r + 1 ∧
        (text.drop (r + 1 - query.length)).take query.length = query) := by
  have hslen : (query ++ '#' :: text).length = query.length + 1 + text.length := by
    simp only [List.length_append, List.length_cons]
    omega
  have hulen : ((query ++ '#' :: text).take (query.length + 2 + r)).length
      = query.length + 2 + r := by
    rw [List.length_take, hslen]
    omega
  have htakeq : ((query ++ '#' :: text).take (query.length + 2 + r)).take query.length
      = query := by
    rw [List.take_take, show min query.length (query.length + 2 + r) = query.length
      from by omega]
    exact List.take_left' rfl
  have hdropu : query.length ≤ r + 1 →
      ((query ++ '#' :: text).take (query.length + 2 + r)).drop (r + 2)
        = (text.drop (r + 1 - query.length)).take query.length := by
    intro hle
    rw [List.drop_take]
    rw [show query.length + 2 + r - (r + 2) = query.length from by omega]
    congr 1
    rw [show r + 2 = query.length + (r + 2 - query.length) from by omega, List.drop_append]
    rw [show r + 2 - query.length = (r + 1 - query.length) + 1 from by omega]
    rfl
  constructor
  · intro hmb
    obtain ⟨hblt, hbeq⟩ := hmb.1
    rw [hulen] at hblt
    rw [hulen, show query.length + 2 + r - query.length = r + 2 from by omega,
      htakeq] at hbeq
    have hle : query.length ≤ r + 1 := by
      by_contra hgt
      push_neg at hgt
      have hidx : query.length - (r + 2) < query.length := by omega
      have hx := congrArg
        (fun l : List Char => l.getD (query.length - (r + 2)) default) hbeq
      simp only [] at hx
      rw [getD_drop', show r + 2 + (query.length - (r + 2)) = query.length
        from by omega, getD_take_of_lt (by omega), concat_getD_sentinel] at hx
      exact hq (hx ▸ getD_mem hidx default)
    exact ⟨hle, (hbeq.trans (hdropu hle)).symm⟩
  · rintro ⟨hle, hocc⟩
    constructor
    · refine ⟨by rw [hulen]; omega, ?_⟩
      rw [hulen, show query.length + 2 + r - query.length = r + 2 from by omega]
      rw [htakeq, hdropu hle, hocc]
    · intro j hj
      by_contra hgt
      push_neg at hgt
      obtain ⟨hjlt, hjeq⟩ := hj
      rw [hulen] at hjlt
      rw [hulen] at hjeq
      have e1 : ((query ++ '#' :: text).take (query.length + 2 + r)).getD
          query.length default = '#' := by
        rw [getD_take_of_lt (by omega), concat_getD_sentinel]
      have e2 : (((query ++ '#' :: text).take (query.length + 2 + r)).take j).getD
          query.length default
          = ((query ++ '#' :: text).take (query.length + 2 + r)).getD
              query.length default :=
        getD_take_of_lt hgt _
      have e3 : (((query ++ '#' :: text).take (query.length + 2 + r)).drop
          (query.length + 2 + r - j)).getD query.length default
          = ((query ++ '#' :: text).take (query.length + 2 + r)).getD
              ((query.length + 2 + r - j) + query.length) default :=
        getD_drop' _ _ _ _
      have hm2 : (query.length + 2 + r - j) + query.length < query.length + 2 + r := by
        omega
      have e4 : ((query ++ '#' :: text).take (query.length + 2 + r)).getD
          ((query.length + 2 + r - j) + query.length) default
          = text.getD (query.length + 1 + r - j) default := by
        rw [getD_take_of_lt hm2, show (query.length + 2 + r - j) + query.length
          = query.length + 1 + (query.length + 1 + r - j) from by omega]
        exact concat_getD_text text query _
      have efin : text.getD (query.length + 1 + r - j) default = '#' := by
        rw [← e4, ← e3, ← hjeq, e2, e1]
      have hmlt : query.length + 1 + r - j < text.length := by omega
      exact ht (efin ▸ getD_mem hmlt default)

/-- The prefix-function value at the position of the concatenation
corresponding to text index `r` equals `query.length` exactly when an
occurrence of `query` ends at text index `r`. -/
theorem pf_value_concat (text query : List Char)
    (ht : '#' ∉ text) (hq : '#' ∉ query) {r : Nat} (hr : r < text.length) :
    ((pfCore (query ++ '#' :: text)).getD (query.length + 1 + r) 0 = query.length) ↔
      (query.length ≤ r + 1 ∧
        (text.drop (r + 1 - query.length)).take query.length = query) := by
  have hne : (query ++ '#' :: text) ≠ [] := by simp
  obtain ⟨hlen, hmb⟩ := pfCore_spec _ hne
  have hslen : (query ++ '#' :: text).length = query.length + 1 + text.length := by
    simp only [List.length_append, List.length_cons]
    omega
  have hidx : query.length + 1 + r < (query ++ '#' :: text).length := by
    rw [hslen]
    omega
  have hmbi := hmb (query.length + 1 + r) hidx
  rw [show query.length + 1 + r + 1 = query.length + 2 + r from by omega] at hmbi
  constructor
  · intro h
    rw [h] at hmbi
    exact (maxBorder_concat_iff text query ht hq hr).mp hmbi
  · intro h
    exact IsMaxBorder_unique hmbi ((maxBorder_concat_iff text query ht hq hr).mpr h)

/-! ### Unfolding `find_positions_of_query` -/

theorem find_eq (text query : List Char) (h : ¬ query.length > text.length) :
    find_positions_of_query text query =
      if extractMatches ((pfCore (query ++ '#' :: text)).drop (query.length + 1))
            query.length = []
      then none
      else some (extractMatches
        ((pfCore (query ++ '#' :: text)).drop (query.length + 1)) query.length) := by
  unfold find_positions_of_query
  rw [if_neg h]

theorem relevant_length (text query : List Char) :
    ((pfCore (query ++ '#' :: text)).drop (query.length + 1)).length = text.length := by
  have hne : (query ++ '#' :: text) ≠ [] := by simp
  rw [List.length_drop, (pfCore_spec _ hne).1]
  simp only [List.length_append, List.length_cons]
  omega

theorem relevant_getD (text query : List Char) (r : Nat) :
    ((pfCore (query ++ '#' :: text)).drop (query.length + 1)).getD r 0
      = (pfCore (query ++ '#' :: text)).getD (query.length + 1 + r) 0 :=
  getD_drop' _ _ _ _

theorem filterMap_some {α β : Type} (g : α → β) (l : List α) :
    (l.filterMap fun a => some (g a)) = l.map g := by
  induction l with
  | nil => rfl
  | cons a l ih => simp [List.filterMap_cons, ih]

/-- Under the sentinel assumption, for a nonempty query that is not longer
than the text, the extracted matches are exactly the spec's occurrence list. -/
theorem extractMatches_eq_spec (text query : List Char)
    (ht : '#' ∉ text) (hq : '#' ∉ query)
    (h1 : 0 < query.length) (h2 : query.length ≤ text.length) :
    extractMatches ((pfCore (query ++ '#' :: text)).drop (query.length + 1))
        query.length
      = (specOccurrences text query).map (fun p : Nat => (p : Int)) := by
  unfold extractMatches
  rw [relevant_length]
  rw [show text.length = (query.length - 1) + (text.length + 1 - query.length)
    from by omega]
  rw [List.range_add, List.filterMap_append]
  have hfirst : (List.range (query.length - 1)).filterMap (fun index =>
      if ((pfCore (query ++ '#' :: text)).drop (query.length + 1)).getD index 0
          = query.length
      then some ((index : Int) - ((query.length : Int) - 1)) else none) = [] := by
    rw [List.filterMap_eq_nil_iff]
    intro r hrmem
    rw [List.mem_range] at hrmem
    rw [if_neg]
    intro hval
    rw [relevant_getD] at hval
    have := (pf_value_concat text query ht hq
      (show r < text.length from by omega)).mp hval
    omega
  rw [hfirst, List.nil_append, List.filterMap_map]
  have hcg : ∀ p ∈ List.range (text.length + 1 - query.length),
      ((fun index =>
        if ((pfCore (query ++ '#' :: text)).drop (query.length + 1)).getD index 0
            = query.length
        then some ((index : Int) - ((query.length : Int) - 1)) else none)
        ∘ (query.length - 1 + ·)) p
      = (if (text.drop p).take query.length = query then some ((p : Nat) : Int)
          else none) := by
    intro p hp
    rw [List.mem_range] at hp
    simp only [Function.comp]
    have hr : query.length - 1 + p < text.length := by omega
    rw [relevant_getD]
    by_cases hocc : (text.drop p).take query.length = query
    · rw [if_pos, if_pos hocc]
      · congr 1
        omega
      · rw [pf_value_concat text query ht hq hr]
        refine ⟨by omega, ?_⟩
        rw [show query.length - 1 + p + 1 - query.length = p from by omega]
        exact hocc
    · rw [if_neg, if_neg hocc]
      intro hval
      rw [pf_value_concat text query ht hq hr] at hval
      rw [show query.length - 1 + p + 1 - query.length = p from by omega] at hval
      exact hocc hval.2
  rw [List.filterMap_congr hcg]
  rw [filterMap_ite (fun p => (text.drop p).take query.length = query)
    (fun p : Nat => (p : Int)) _]
  unfold specOccurrences
  rfl

/-! ### Claim theorems -/

/-- C2, as stated, is false on the code: the sentinel `'#'` is not validated
against the inputs, and an occurrence of `"#"` in `"##"` at position `0` is
not reported (the function returns the no-match signal). -/
theorem C2_counterexample :
    ¬ (∀ (text query : List Char) (p : Nat),
        (text.drop p).take query.length = query →
        ∃ l, find_positions_of_query text query = some l ∧ (p : Int) ∈ l ∧
          (text.drop p).take query.length = query) := by
  intro h
  obtain ⟨l, hl, -⟩ := h ['#', '#'] ['#'] 0 (by decide)
  rw [show find_positions_of_query ['#', '#'] ['#'] = none from by decide] at hl
  exact Option.noConfusion hl

/-- C2 amended: provided neither input contains the sentinel character `'#'`
and the query is non-empty, every position at which the query occurs in the
text appears in the returned list. -/
theorem C2_occurrence_reported (text query : List Char) (p : Nat)
    (ht : '#' ∉ text) (hq : '#' ∉ query) (h1 : 0 < query.length)
    (hocc : (text.drop p).take query.length = query) :
    ∃ l, find_positions_of_query text query = some l ∧ (p : Int) ∈ l ∧
      (text.drop p).take query.length = query := by
  have hb := congrArg List.length hocc
  simp only [List.length_take, List.length_drop] at hb
  have hple : p + query.length ≤ text.length := by omega
  have hr : p + query.length - 1 < text.length := by omega
  have hval : (pfCore (query ++ '#' :: text)).getD
      (query.length + 1 + (p + query.length - 1)) 0 = query.length := by
    rw [pf_value_concat text query ht hq hr]
    refine ⟨by omega, ?_⟩
    rw [show p + query.length - 1 + 1 - query.length = p from by omega]
    exact hocc
  have hmem : (p : Int) ∈ extractMatches
      ((pfCore (query ++ '#' :: text)).drop (query.length + 1)) query.length := by
    unfold extractMatches
    rw [List.mem_filterMap]
    refine ⟨p + query.length - 1, ?_, ?_⟩
    · rw [List.mem_range, relevant_length]
      exact hr
    · rw [relevant_getD, if_pos hval]
      congr 1
      omega
  rw [find_eq text query (by omega)]
  rw [if_neg (List.ne_nil_of_mem hmem)]
  exact ⟨_, rfl, hmem, hocc⟩

theorem C2_occurrence_reported_witness :
    '#' ∉ (['a', 'b'] : List Char) ∧ '#' ∉ (['a'] : List Char) ∧
    0 < (['a'] : List Char).length ∧
    ((['a', 'b'] : List Char).drop 0).take (['a'] : List Char).length = ['a'] ∧
    (∃ l, find_positions_of_query ['a', 'b'] ['a'] = some l ∧ ((0 : Nat) : Int) ∈ l ∧
      ((['a', 'b'] : List Char).drop 0).take (['a'] : List Char).length = ['a']) :=
  ⟨by decide, by decide, by decide, by decide,
    C2_occurrence_reported ['a', 'b'] ['a'] 0 (by decide) (by decide) (by decide)
      (by decide)⟩

/-- C3, as stated, is false on the code: with the sentinel character in the
inputs a match can straddle the sentinel, and the reported position is the
negative number `-2` for text `"a#a"` and query `"a#a"`. -/
theorem C3_counterexample :
    ¬ (∀ (text query : List Char) (l : List Int),
        find_positions_of_query text query = some l →
        ∀ p, p ∈ l → 0 ≤ p ∧ p.toNat + query.length ≤ text.length ∧
          (text.drop p.toNat).take query.length = query) := by
  intro h
  have h2 := h ['a', '#', 'a'] ['a', '#', 'a'] [-2] (by decide) (-2) (by decide)
  exact absurd h2.1 (by decide)

/-- C3 amended: provided neither input contains the sentinel character `'#'`,
every reported position is a valid zero-based index at which the query occurs
exactly inside the text. -/
theorem C3_reported_positions_valid (text query : List Char)
    (ht : '#' ∉ text) (hq : '#' ∉ query)
    (l : List Int) (hfind : find_positions_of_query text query = some l) :
    ∀ p, p ∈ l → 0 ≤ p ∧ p.toNat + query.length ≤ text.length ∧
      (text.drop p.toNat).take query.length = query := by
  by_cases hlen : query.length > text.length
  · rw [show find_positions_of_query text query = none from by
      unfold find_positions_of_query; rw [if_pos hlen]] at hfind
    exact Option.noConfusion hfind
  rw [find_eq text query hlen] at hfind
  by_cases hnil : extractMatches
      ((pfCore (query ++ '#' :: text)).drop (query.length + 1)) query.length = []
  · rw [if_pos hnil] at hfind
    exact Option.noConfusion hfind
  rw [if_neg hnil] at hfind
  have hl := (Option.some.inj hfind).symm
  subst hl
  intro p hp
  unfold extractMatches at hp
  rw [List.mem_filterMap] at hp
  obtain ⟨r, hrmem, hrval⟩ := hp
  rw [List.mem_range, relevant_length] at hrmem
  rw [relevant_getD] at hrval
  by_cases hcond : (pfCore (query ++ '#' :: text)).getD
      (query.length + 1 + r) 0 = query.length
  · rw [if_pos hcond] at hrval
    obtain ⟨hle, hocc⟩ := (pf_value_concat text query ht hq hrmem).mp hcond
    have hinj := Option.some.inj hrval
    have hp0 : 0 ≤ p := by omega
    have hptn : p.toNat = r + 1 - query.length := by omega
    have hb := congrArg List.length hocc
    simp only [List.length_take, List.length_drop] at hb
    refine ⟨hp0, ?_, ?_⟩
    · omega
    · rw [hptn]
      exact hocc
  · rw [if_neg hcond] at hrval
    exact Option.noConfusion hrval

theorem C3_reported_positions_valid_witness :
    '#' ∉ (['a', 'b'] : List Char) ∧ '#' ∉ (['a'] : List Char) ∧
    find_positions_of_query ['a', 'b'] ['a'] = some [0] ∧
    (∀ p, p ∈ ([0] : List Int) → 0 ≤ p ∧
      p.toNat + (['a'] : List Char).length ≤ (['a', 'b'] : List Char).length ∧
      ((['a', 'b'] : List Char).drop p.toNat).take (['a'] : List Char).length
        = ['a']) :=
  ⟨by decide, by decide, by decide,
    C3_reported_positions_valid ['a', 'b'] ['a'] (by decide) (by decide) [0]
      (by decide)⟩

/-- C4: on the empty sequence `_create_prefix_func` does not return an empty
array as the spec requires; the assignment `prefix_func[0] = 0` raises
`IndexError` (modelled by `none`). -/
theorem C4_empty_input_raises : create_prefix_func ([] : List Char) = none := rfl

/-- C6: when the query is longer than the text, the function returns the
no-match signal `None` from the initial short-circuit check. -/
theorem C6_long_query_none (text query : List Char)
    (h : text.length < query.length) :
    find_positions_of_query text query = none := by
  unfold find_positions_of_query
  rw [if_pos (by omega)]

theorem C6_long_query_none_witness :
    (['a', 'b', 'c'] : List Char).length < (['a', 'b', 'c', 'a'] : List Char).length ∧
    find_positions_of_query ['a', 'b', 'c'] ['a', 'b', 'c', 'a'] = none :=
  ⟨by decide, C6_long_query_none ['a', 'b', 'c'] ['a', 'b', 'c', 'a'] (by decide)⟩

/-- C7: the concrete reference scenarios of the spec and the test suite. -/
theorem C7_reference_scenarios :
    find_positions_of_query ['a', 'b', 'c', 'z', 'a', 'b', 'c', 'f'] ['a', 'b', 'c']
        = some [0, 4] ∧
    find_positions_of_query ['a', 'b', 'c'] ['z', 'z'] = none ∧
    find_positions_of_query ['a', 'b', 'c'] ['a', 'b', 'c', 'a'] = none ∧
    find_positions_of_query ['a', 'a', 'a', 'a'] ['a', 'a'] = some [0, 1, 2] := by
  refine ⟨?_, ?_, ?_, ?_⟩ <;> decide

/-- C8: whenever a list is returned, its entries are strictly increasing. -/
theorem C8_strictly_increasing (text query : List Char) (l : List Int)
    (h : find_positions_of_query text query = some l) :
    l.Pairwise (· < ·) := by
  by_cases hlen : query.length > text.length
  · rw [show find_positions_of_query text query = none from by
      unfold find_positions_of_query; rw [if_pos hlen]] at h
    exact Option.noConfusion h
  rw [find_eq text query hlen] at h
  by_cases hnil : extractMatches
      ((pfCore (query ++ '#' :: text)).drop (query.length + 1)) query.length = []
  · rw [if_pos hnil] at h
    exact Option.noConfusion h
  rw [if_neg hnil] at h
  have hl := (Option.some.inj h).symm
  subst hl
  unfold extractMatches
  rw [filterMap_ite
    (fun index => ((pfCore (query ++ '#' :: text)).drop (query.length + 1)).getD
      index 0 = query.length)
    (fun index : Nat => (index : Int) - ((query.length : Int) - 1)) _]
  rw [List.pairwise_map]
  refine List.Pairwise.sublist (List.filter_sublist _) ?_
  refine List.Pairwise.imp ?_ (List.sorted_lt_range _)
  intro a b hab
  omega

theorem C8_strictly_increasing_witness :
    find_positions_of_query ['a', 'a'] ['a'] = some [0, 1] ∧
    List.Pairwise (· < ·) ([0, 1] : List Int) :=
  ⟨by decide, C8_strictly_increasing ['a', 'a'] ['a'] [0, 1] (by decide)⟩

/-- C9: the function returns `None` exactly when the match loop records no
position, and it never returns an empty list. -/
theorem C9_none_iff_no_matches (text query : List Char) :
    (find_positions_of_query text query = none ↔ recordedMatches text query = []) ∧
    find_positions_of_query text query ≠ some [] := by
  unfold recordedMatches
  by_cases hlen : query.length > text.length
  · rw [if_pos hlen, show find_positions_of_query text query = none from by
      unfold find_positions_of_query; rw [if_pos hlen]]
    exact ⟨by simp, by simp⟩
  · rw [if_neg hlen, find_eq text query hlen]
    by_cases hnil : extractMatches
        ((pfCore (query ++ '#' :: text)).drop (query.length + 1)) query.length = []
    · rw [if_pos hnil]
      exact ⟨by simp [hnil], by simp⟩
    · rw [if_neg hnil]
      exact ⟨by simp [hnil], by simp [hnil]⟩

/-- C10, as stated, is false on the code: for a text containing the sentinel
character the empty query does not yield `[1, …, length(text)]`; on
text `"#"` the function returns `None` instead of `[1]`. -/
theorem C10_counterexample :
    ¬ (∀ text : List Char, text ≠ [] →
        find_positions_of_query text [] =
          some ((List.range text.length).map fun r : Nat => (r : Int) + 1)) := by
  intro h
  have h2 := h ['#'] (by decide)
  rw [show find_positions_of_query ['#'] [] = none from by decide] at h2
  exact Option.noConfusion h2

/-- C10 amended: for the empty query and a text not containing `'#'`, the
function returns `[1, …, length(text)]` when the text is non-empty and `None`
when the text is empty. -/
theorem C10_empty_query (text : List Char) (ht : '#' ∉ text) :
    find_positions_of_query text [] =
      if text = [] then none
      else some ((List.range text.length).map fun r : Nat => (r : Int) + 1) := by
  have hq : '#' ∉ ([] : List Char) := by simp
  rw [find_eq text [] (by simp)]
  have key : extractMatches
      ((pfCore (([] : List Char) ++ '#' :: text)).drop (List.length ([] : List Char) + 1))
      (List.length ([] : List Char))
      = (List.range text.length).map fun r : Nat => (r : Int) + 1 := by
    unfold extractMatches
    rw [relevant_length]
    have hcg : ∀ r ∈ List.range text.length,
        (if ((pfCore (([] : List Char) ++ '#' :: text)).drop
              (List.length ([] : List Char) + 1)).getD r 0
            = List.length ([] : List Char)
         then some ((r : Int) - ((List.length ([] : List Char) : Int) - 1))
         else none)
        = some ((r : Int) + 1) := by
      intro r hr
      rw [List.mem_range] at hr
      have hcond : ((pfCore (([] : List Char) ++ '#' :: text)).drop
          (List.length ([] : List Char) + 1)).getD r 0
          = List.length ([] : List Char) := by
        rw [relevant_getD, pf_value_concat text [] ht hq hr]
        simp
      rw [if_pos hcond]
      congr 1
    rw [List.filterMap_congr hcg]
    exact filterMap_some (fun r : Nat => (r : Int) + 1) _
  rw [key]
  by_cases htxt : text = []
  · subst htxt
    simp
  · have hne : ((List.range text.length).map fun r : Nat => (r : Int) + 1) ≠ [] := by
      simp [List.length_eq_zero, htxt]
    rw [if_neg hne, if_neg htxt]

theorem C10_empty_query_witness :
    '#' ∉ (['a', 'b'] : List Char) ∧
    (find_positions_of_query ['a', 'b'] [] =
      if (['a', 'b'] : List Char) = [] then none
      else some ((List.range (['a', 'b'] : List Char).length).map
        fun r : Nat => (r : Int) + 1)) :=
  ⟨by decide, C10_empty_query ['a', 'b'] (by decide)⟩

/-- C5: under the sentinel assumption (no `'#'` in either input) and for a
non-empty query no longer than the text, the function returns exactly the
increasing list of all occurrence positions, or `None` when there is none. -/
theorem C5_exact_occurrence_list (text query : List Char)
    (ht : '#' ∉ text) (hq : '#' ∉ query)
    (h1 : 0 < query.length) (h2 : query.length ≤ text.length) :
    find_positions_of_query text query =
      if specOccurrences text query = [] then none
      else some ((specOccurrences text query).map (fun p : Nat => (p : Int))) := by
  rw [find_eq text query (by omega)]
  rw [extractMatches_eq_spec text query ht hq h1 h2]
  by_cases hnil : specOccurrences text query = []
  · rw [if_pos (by rw [hnil]; rfl), if_pos hnil]
  · rw [if_neg (by simpa using hnil), if_neg hnil]

theorem C5_exact_occurrence_list_witness :
    '#' ∉ (['a', 'b', 'a'] : List Char) ∧ '#' ∉ (['a'] : List Char) ∧
    0 < (['a'] : List Char).length ∧
    (['a'] : List Char).length ≤ (['a', 'b', 'a'] : List Char).length ∧
    (find_positions_of_query ['a', 'b', 'a'] ['a'] =
      if specOccurrences ['a', 'b', 'a'] ['a'] = [] then none
      else some ((specOccurrences ['a', 'b', 'a'] ['a']).map
        (fun p : Nat => (p : Int)))) :=
  ⟨by decide, by decide, by decide, by decide,
    C5_exact_occurrence_list ['a', 'b', 'a'] ['a'] (by decide) (by decide)
      (by decide) (by decide)⟩

end KMP
